import Mathlib

/-!
Verification of the `collect-unmarked-tests` scanner.

The program scans Python source text line by line, recognizes class and
test-function definition lines, collects pytest-style decorator markers by a
backward scan with delimiter-depth tracking, propagates class-level markers to
nested methods by indentation, and reports every test function carrying none
of the excluded markers.

Lines are modelled as `List Char`; a file is a `List (List Char)` (plus a
`String` wrapper reproducing `str::lines`).  Marker sets (`HashSet<String>` in
the source) are modelled as lists observed only through membership; the
delimiter-depth counters (`i32` in the source, never anywhere near overflow)
are modelled as `Int`.
-/

namespace CollectUnmarked

/-- Whitespace characters: the ASCII range of the white-space class used by
the scanner for trimming and for the `\s` regex class. -/
def isSpaceChar (c : Char) : Bool :=
  c = ' ' || c = '\t' || c = '\n' || c = '\r' || c = '\x0b' || c = '\x0c'

/-- Word characters, the `\w` regex class: letters, digits and underscore. -/
def isWordChar (c : Char) : Bool :=
  c.isAlphanum || c = '_'

/-- Trim whitespace from both ends of a line (`str::trim`). -/
def trimChars (l : List Char) : List Char :=
  ((l.dropWhile isSpaceChar).reverse.dropWhile isSpaceChar).reverse

/-- Indentation level of a line: number of leading whitespace characters. -/
def indentOf (l : List Char) : Nat :=
  (l.takeWhile isSpaceChar).length

/-- Net delimiter count of a line for one open/close pair: each opening
character counts `+1`, each closing character `-1`. -/
def delimDelta (o c : Char) (l : List Char) : Int :=
  (l.count o : Int) - (l.count c : Int)

/-- The literal namespace prefix `pytest.mark.` of the marker regex. -/
def pytestMarkPrefix : List Char := "pytest.mark.".data

/-- One attempt of the marker regex `@(?:pytest\.mark\.)?(\w+)` at the head of
the remaining input: an `@`, then greedily the optional `pytest.mark.` prefix,
then one or more word characters, whose maximal run is the capture.  If the
prefix matches but no word character follows it, the engine falls back to
matching the word run directly after the `@`. -/
def markerAt : List Char → Option (List Char)
  | '@' :: r =>
    if r.take 12 = pytestMarkPrefix then
      if (r.drop 12).takeWhile isWordChar = [] then
        if r.takeWhile isWordChar = [] then none
        else some (r.takeWhile isWordChar)
      else some ((r.drop 12).takeWhile isWordChar)
    else
      if r.takeWhile isWordChar = [] then none
      else some (r.takeWhile isWordChar)
  | _ => none

/-- `extract_pytest_marker`: leftmost match of `@(?:pytest\.mark\.)?(\w+)`,
returning the captured marker identifier if any. -/
def extract_pytest_marker : List Char → Option (List Char)
  | [] => none
  | c :: r =>
    match markerAt (c :: r) with
    | some m => some m
    | none => extract_pytest_marker r

/-- The class-definition regex `^(\s*)class\s+(\w+)`: returns the indentation
level (length of the leading whitespace capture) on a match. -/
def matchClass (l : List Char) : Option Nat :=
  let r1 := l.dropWhile isSpaceChar
  if r1.take 5 = "class".data then
    let r2 := r1.drop 5
    if r2.takeWhile isSpaceChar = [] then none
    else
      if (r2.dropWhile isSpaceChar).takeWhile isWordChar = [] then none
      else some (l.takeWhile isSpaceChar).length
  else none

/-- The test-function regex `^(\s*)def\s+(test_\w+)\s*\(`: returns the
indentation level and the captured function name on a match. -/
def matchTestFn (l : List Char) : Option (Nat × List Char) :=
  let r1 := l.dropWhile isSpaceChar
  if r1.take 3 = "def".data then
    let r2 := r1.drop 3
    if r2.takeWhile isSpaceChar = [] then none
    else
      let r3 := r2.dropWhile isSpaceChar
      if r3.take 5 = "test_".data then
        let r4 := r3.drop 5
        if r4.takeWhile isWordChar = [] then none
        else
          match ((r4.dropWhile isWordChar).dropWhile isSpaceChar).head? with
          | some '(' => some ((l.takeWhile isSpaceChar).length,
              "test_".data ++ r4.takeWhile isWordChar)
          | _ => none
      else none
  else none

/-- The trimmed text of line `j` of the file (empty for an out-of-range index,
which the scans never access). -/
def lineTrim (lines : List (List Char)) (j : Nat) : List Char :=
  trimChars (lines.getD j [])

/-- Insert the marker extracted from a decorator line, if any, into the
accumulated marker set. -/
def pushMarker (t : List Char) (acc : List (List Char)) : List (List Char) :=
  match extract_pytest_marker t with
  | some m => m :: acc
  | none => acc

/-- Whether the marker extracted from a decorator line, if any, belongs to the
excluded set. -/
def markerExcluded (exclude : List (List Char)) (t : List Char) : Bool :=
  match extract_pytest_marker t with
  | some m => exclude.contains m
  | none => false

/-- Backward decorator scan (the class-level variant): starting from the line
above index `j`, walk upward, skip blank lines, accumulate delimiter depths,
collect the marker of every line beginning with `@`, and stop at the first
non-decorator line seen while all three depths are zero. -/
def scanMarkers (lines : List (List Char)) :
    Nat → Int → Int → Int → List (List Char) → List (List Char)
  | 0, _, _, _, acc => acc
  | j+1, pd, bd, cd, acc =>
    if lineTrim lines j = [] then
      scanMarkers lines j pd bd cd acc
    else if (lineTrim lines j).head? = some '@' then
      scanMarkers lines j (pd + delimDelta '(' ')' (lineTrim lines j))
        (bd + delimDelta '[' ']' (lineTrim lines j))
        (cd + delimDelta '\x7b' '\x7d' (lineTrim lines j))
        (pushMarker (lineTrim lines j) acc)
    else if pd + delimDelta '(' ')' (lineTrim lines j) = 0 ∧
        bd + delimDelta '[' ']' (lineTrim lines j) = 0 ∧
        cd + delimDelta '\x7b' '\x7d' (lineTrim lines j) = 0 then
      acc
    else
      scanMarkers lines j (pd + delimDelta '(' ')' (lineTrim lines j))
        (bd + delimDelta '[' ']' (lineTrim lines j))
        (cd + delimDelta '\x7b' '\x7d' (lineTrim lines j)) acc

/-- Backward decorator scan (the function-level variant): same walk as
`scanMarkers`, but it stops with result `true` as soon as a decorator line
carries a marker of the excluded set. -/
def scanHasExcluded (lines : List (List Char)) (exclude : List (List Char)) :
    Nat → Int → Int → Int → Bool
  | 0, _, _, _ => false
  | j+1, pd, bd, cd =>
    if lineTrim lines j = [] then
      scanHasExcluded lines exclude j pd bd cd
    else if (lineTrim lines j).head? = some '@' then
      if markerExcluded exclude (lineTrim lines j) then true
      else scanHasExcluded lines exclude j
        (pd + delimDelta '(' ')' (lineTrim lines j))
        (bd + delimDelta '[' ']' (lineTrim lines j))
        (cd + delimDelta '\x7b' '\x7d' (lineTrim lines j))
    else if pd + delimDelta '(' ')' (lineTrim lines j) = 0 ∧
        bd + delimDelta '[' ']' (lineTrim lines j) = 0 ∧
        cd + delimDelta '\x7b' '\x7d' (lineTrim lines j) = 0 then
      false
    else
      scanHasExcluded lines exclude j
        (pd + delimDelta '(' ')' (lineTrim lines j))
        (bd + delimDelta '[' ']' (lineTrim lines j))
        (cd + delimDelta '\x7b' '\x7d' (lineTrim lines j))

/-- Processing of a class-definition line at index `i` with indentation `ci`:
scan its decorators, drop every scope entry at the same or deeper
indentation, and append the new entry when its marker set is non-empty. -/
def classUpdate (lines : List (List Char)) (cms : List (Nat × List (List Char)))
    (i : Nat) (ci : Nat) : List (Nat × List (List Char)) :=
  let ms := scanMarkers lines i 0 0 0 []
  let kept := cms.filter (fun p => decide (p.1 < ci))
  if ms = [] then kept else kept ++ [(ci, ms)]

/-- One step of the class-scope state for line `i` (only class-definition
lines change it). -/
def classStep (lines : List (List Char)) (cms : List (Nat × List (List Char)))
    (i : Nat) : List (Nat × List (List Char)) :=
  match matchClass (lines.getD i []) with
  | some ci => classUpdate lines cms i ci
  | none => cms

/-- Class-scope state at the moment line `i` is about to be processed. -/
def classStateAt (lines : List (List Char)) : Nat → List (Nat × List (List Char))
  | 0 => []
  | i+1 => classStep lines (classStateAt lines i) i

/-- Whether any scope entry strictly shallower than the function's
indentation carries a marker of the excluded set. -/
def classHasExcluded (exclude : List (List Char))
    (cms : List (Nat × List (List Char))) (fi : Nat) : Bool :=
  cms.any (fun p => decide (p.1 < fi) && p.2.any (fun m => exclude.contains m))

/-- The exclusion decision for a test function defined on line `i` at
indentation `fi`: class scope first, then (only if still unmarked) the
function's own backward decorator scan. -/
def testExcluded (lines : List (List Char)) (exclude : List (List Char))
    (cms : List (Nat × List (List Char))) (i : Nat) (fi : Nat) : Bool :=
  classHasExcluded exclude cms fi || scanHasExcluded lines exclude i 0 0 0

/-- The forward scan of `find_python_test_functions`: `rest` is the remaining
suffix of the file starting at line index `i`, `cms` the class-scope state. -/
def findAux (lines : List (List Char)) (exclude : List (List Char)) :
    List (List Char) → Nat → List (Nat × List (List Char)) → List (List Char)
  | [], _, _ => []
  | l :: rest, i, cms =>
    match matchClass l with
    | some ci => findAux lines exclude rest (i+1) (classUpdate lines cms i ci)
    | none =>
      match matchTestFn l with
      | some (fi, name) =>
        if testExcluded lines exclude cms i fi then
          findAux lines exclude rest (i+1) cms
        else
          name :: findAux lines exclude rest (i+1) cms
      | none => findAux lines exclude rest (i+1) cms

/-- Core analysis over a pre-split list of lines: the names of the unmarked
test functions, in order of appearance. -/
def findPythonTestFunctions (lines : List (List Char))
    (exclude : List (List Char)) : List (List Char) :=
  findAux lines exclude lines 0 []

/-- Splitting of the raw character stream as `str::lines` does: lines are
separated by `\n`, a `\r` immediately preceding a separator is stripped, and
a final line ending is optional. -/
def rustLinesAux : List Char → List Char → List (List Char)
  | [], [] => []
  | [], cur => [cur.reverse]
  | '\n' :: rest, '\r' :: cur => cur.reverse :: rustLinesAux rest []
  | '\n' :: rest, cur => cur.reverse :: rustLinesAux rest []
  | c :: rest, cur => rustLinesAux rest (c :: cur)

/-- The lines of a string, as `str::lines` yields them. -/
def rustLines (s : String) : List (List Char) :=
  rustLinesAux s.data []

/-- Top-level analysis entry point `find_python_test_functions`, over the raw
file content. -/
def find_python_test_functions (content : String) (excludeMarkers : List String) :
    List String :=
  (findPythonTestFunctions (rustLines content) (excludeMarkers.map String.data)).map
    String.mk

/-- Modelled from the spec: the markers declared by the function's own
preceding decorator lines (the full backward scan, no early stop). -/
def specOwnMarkers (lines : List (List Char)) (i : Nat) : List (List Char) :=
  scanMarkers lines i 0 0 0 []

/-- Modelled from the spec: the markers inherited from every enclosing class
scope entry, an entry enclosing the function iff the function's indentation is
strictly greater than the entry's. -/
def specInheritedMarkers (lines : List (List Char)) (i : Nat) (fi : Nat) :
    List (List Char) :=
  (((classStateAt lines i).filter (fun p => decide (p.1 < fi))).map
    (fun p => p.2)).flatten

/-- Modelled from the spec: the effective marker set of a test function — its
own decorators unioned with all enclosing class-level markers. -/
def specEffectiveMarkers (lines : List (List Char)) (i : Nat) (fi : Nat) :
    List (List Char) :=
  specOwnMarkers lines i ++ specInheritedMarkers lines i fi

/-- Modelled from the spec: whether the effective marker set intersects the
excluded set. -/
def specMarked (lines : List (List Char)) (exclude : List (List Char))
    (i : Nat) (fi : Nat) : Bool :=
  (specEffectiveMarkers lines i fi).any (fun m => exclude.contains m)

/-- Modelled from the spec: the verdict for line `i` — the captured function
name when the line is a test-function definition (and not a class
definition) whose effective marker set is disjoint from the excluded set. -/
def specVerdict (lines : List (List Char)) (exclude : List (List Char))
    (i : Nat) : Option (List Char) :=
  match matchClass (lines.getD i []) with
  | some _ => none
  | none =>
    match matchTestFn (lines.getD i []) with
    | some (fi, name) =>
      if specMarked lines exclude i fi then none else some name
    | none => none

/-- The list of indices `[i, i+1, ..., i+n-1]`. -/
def idxFrom : Nat → Nat → List Nat
  | _, 0 => []
  | i, n+1 => i :: idxFrom (i+1) n

/-- Modelled from the spec: the in-order list of names of the unmarked
test-definition lines. -/
def specUnmarkedTests (lines : List (List Char)) (exclude : List (List Char)) :
    List (List Char) :=
  (idxFrom 0 lines.length).filterMap (specVerdict lines exclude)

/-- The names of all test-definition lines of the file, in order of
appearance (class-definition lines cannot simultaneously be test lines). -/
def testDefNames (lines : List (List Char)) : List (List Char) :=
  lines.filterMap (fun l =>
    match matchClass l with
    | some _ => none
    | none => (matchTestFn l).map (fun p => p.2))

/-- Demo input: the same test function name defined twice, both unmarked. -/
def demoDup : List (List Char) :=
  ["def test_dup():".data, "def test_dup():".data]

/-- Demo input: a decorated class followed by a top-level test function at
the same indentation as the class header. -/
def demoClass : List (List Char) :=
  ["@pytest.mark.unit".data, "class TestA:".data, "def test_b():".data]

/-- Demo input: a decorated class with an indented test method. -/
def demoMethod : List (List Char) :=
  ["@pytest.mark.unit".data, "class TestC:".data, "    def test_in(self):".data]

/-- Demo input: a multi-line decorator call spanning several lines, as in the
repository's own test. -/
def demoML : List (List Char) :=
  ["".data,
   "import pytest".data,
   "".data,
   "@pytest.mark.unit".data,
   "@pytest.mark.parametrize(".data,
   "    \"arg1, arg2\",".data,
   "    [".data,
   "        pytest.param(\"a\", \"b\"),".data,
   "        pytest.param(\"c\", \"d\"),".data,
   "    ],".data,
   ")".data,
   "def test_with_multiline_decorator():".data]

/-- Demo input: no test-function definition line at all. -/
def demoNoTests : List (List Char) :=
  ["import pytest".data, "x = 1".data]

/-- Demo input: a marked class whose scope is closed by a sibling class at
exactly the same indentation. -/
def demoSibling : List (List Char) :=
  ["@pytest.mark.unit".data,
   "class TestMarked:".data,
   "    def test_a(self):".data,
   "class TestPlain:".data,
   "    def test_b(self):".data]

/-! ### Basic lemmas about the marker extractor -/

theorem takeWhile_append_of (p : Char → Bool) :
    ∀ (w rest : List Char), (∀ c ∈ w, p c = true) →
      (∀ c, rest.head? = some c → p c = false) →
      (w ++ rest).takeWhile p = w
  | [], rest, _, hr => by
    cases rest with
    | nil => rfl
    | cons r rs => simp [List.takeWhile_cons, hr r rfl]
  | a :: w, rest, hw, hr => by
    have ha := hw a (List.mem_cons_self a w)
    simp only [List.cons_append, List.takeWhile_cons, ha, if_true]
    rw [takeWhile_append_of p w rest (fun c hc => hw c (List.mem_cons_of_mem _ hc)) hr]

/-- C5: for every identifier `w`, the namespaced form `@pytest.mark.w…` and
the bare form `@w…` both extract exactly the marker `w`; the maximal word run
immediately after the sigil (after the optional `pytest.mark.` prefix) is
returned and trailing call-argument text is ignored. -/
theorem extract_marker_namespaced_eq_bare (w rest : List Char)
    (hw : w ≠ []) (hword : w.all isWordChar = true)
    (hrest : rest.head?.all (fun c => !isWordChar c) = true)
    (hpfx : (w ++ rest).take 12 ≠ pytestMarkPrefix) :
    extract_pytest_marker ('@' :: (pytestMarkPrefix ++ (w ++ rest))) = some w ∧
    extract_pytest_marker ('@' :: (w ++ rest)) = some w := by
  have hword' : ∀ c ∈ w, isWordChar c = true := List.all_eq_true.mp hword
  have hrest' : ∀ c, rest.head? = some c → isWordChar c = false := by
    intro c hc
    rw [hc] at hrest
    simpa using hrest
  have hTW : (w ++ rest).takeWhile isWordChar = w :=
    takeWhile_append_of isWordChar w rest hword' hrest'
  have hlen : pytestMarkPrefix.length = 12 := rfl
  have hTake : (pytestMarkPrefix ++ (w ++ rest)).take 12 = pytestMarkPrefix := by
    rw [← hlen]; exact List.take_left pytestMarkPrefix (w ++ rest)
  have hDrop : (pytestMarkPrefix ++ (w ++ rest)).drop 12 = w ++ rest := by
    rw [← hlen]; exact List.drop_left pytestMarkPrefix (w ++ rest)
  constructor
  · have hM : markerAt ('@' :: (pytestMarkPrefix ++ (w ++ rest))) = some w := by
      simp only [markerAt, hTake, if_pos rfl, hDrop, hTW]
      simp [hw]
    simp [extract_pytest_marker, hM]
  · have hM : markerAt ('@' :: (w ++ rest)) = some w := by
      simp only [markerAt, if_neg hpfx, hTW]
      simp [hw]
    simp [extract_pytest_marker, hM]

/-- Witness for C5 at `w = "unit"`, trailing arguments `('a')`. -/
theorem extract_marker_namespaced_eq_bare_witness :
    extract_pytest_marker ('@' :: (pytestMarkPrefix ++ ("unit".data ++ "('a')".data)))
      = some "unit".data ∧
    extract_pytest_marker ('@' :: ("unit".data ++ "('a')".data)) = some "unit".data :=
  extract_marker_namespaced_eq_bare "unit".data "('a')".data
    (by decide) (by decide) (by decide) (by decide)

/-! ### Shape of captured test-function names -/

theorem matchTestFn_name {l : List Char} {fi : Nat} {name : List Char}
    (h : matchTestFn l = some (fi, name)) :
    ∃ w, w ≠ [] ∧ name = "test_".data ++ w := by
  simp only [matchTestFn] at h
  split at h
  · split at h
    · exact absurd h (by simp)
    · split at h
      · split at h
        · exact absurd h (by simp)
        · split at h
          · cases h
            exact ⟨_, by assumption, rfl⟩
          · exact absurd h (by simp)
      · exact absurd h (by simp)
  · exact absurd h (by simp)

theorem mem_findAux {lines exclude : List (List Char)} :
    ∀ (rest : List (List Char)) (i : Nat) (cms : List (Nat × List (List Char)))
      (x : List Char), x ∈ findAux lines exclude rest i cms →
      ∃ w, w ≠ [] ∧ x = "test_".data ++ w := by
  intro rest
  induction rest with
  | nil => intro i cms x hx; simp [findAux] at hx
  | cons l rest ih =>
    intro i cms x hx
    simp only [findAux] at hx
    split at hx
    · exact ih _ _ _ hx
    · split at hx
      · split at hx
        · exact ih _ _ _ hx
        · rcases List.mem_cons.mp hx with h | h
          · subst h
            exact matchTestFn_name (by assumption)
          · exact ih _ _ _ h
      · exact ih _ _ _ hx

/-- C9: a definition line whose function name is exactly `test_` with nothing
after the underscore does not match the test-function pattern, and the bare
name `test_` can never occur in the output of the analysis. -/
theorem bare_test_prefix_never_reported :
    matchTestFn ("def test_():".data) = none ∧
    ∀ (lines exclude : List (List Char)),
      (findPythonTestFunctions lines exclude).contains ("test_".data) = false := by
  refine ⟨by decide, fun lines exclude => ?_⟩
  cases hco : (findPythonTestFunctions lines exclude).contains ("test_".data) with
  | false => rfl
  | true =>
    exfalso
    have hmem : ("test_".data) ∈ findPythonTestFunctions lines exclude :=
      List.elem_iff.mp hco
    obtain ⟨w, hwne, hshape⟩ := mem_findAux lines 0 [] _ hmem
    exact hwne (List.self_eq_append_right.mp hshape)

/-- C10: one output entry is produced per matching unmarked test-definition
line, not per distinct name — a name defined twice, both occurrences
unmarked, appears twice. -/
theorem duplicate_definitions_reported_per_line :
    find_python_test_functions "def test_dup():\ndef test_dup():" ["unit"]
      = ["test_dup", "test_dup"] ∧
    (findPythonTestFunctions demoDup ["unit".data]).count ("test_dup".data) = 2 := by
  constructor
  · rfl
  · decide

/-- C7: the analysis is a total function of its text input; when no line
matches the test-function pattern the result is empty. -/
theorem analysis_total_empty_without_matches (lines exclude : List (List Char))
    (h : ∀ l ∈ lines, matchTestFn l = none) :
    findPythonTestFunctions lines exclude = [] := by
  suffices hgen : ∀ (rest : List (List Char)) (i : Nat)
      (cms : List (Nat × List (List Char))), (∀ l ∈ rest, matchTestFn l = none) →
      findAux lines exclude rest i cms = [] by
    exact hgen lines 0 [] h
  intro rest
  induction rest with
  | nil => intro i cms _; rfl
  | cons l rest ih =>
    intro i cms hr
    simp only [findAux]
    split
    · exact ih _ _ (fun x hx => hr x (List.mem_cons_of_mem _ hx))
    · split
      · exact absurd (by assumption) (by simp [hr l (List.mem_cons_self l rest)])
      · exact ih _ _ (fun x hx => hr x (List.mem_cons_of_mem _ hx))

/-- Witness for C7 on a file with no test definitions. -/
theorem analysis_total_empty_without_matches_witness :
    findPythonTestFunctions demoNoTests ["unit".data] = [] :=
  analysis_total_empty_without_matches demoNoTests ["unit".data] (by decide)

/-! ### The backward decorator scan -/

theorem pushMarker_append (t : List Char) (acc : List (List Char)) :
    pushMarker t acc = pushMarker t [] ++ acc := by
  unfold pushMarker
  split <;> simp

theorem scanMarkers_append (lines : List (List Char)) :
    ∀ (j : Nat) (pd bd cd : Int) (acc : List (List Char)),
      scanMarkers lines j pd bd cd acc = scanMarkers lines j pd bd cd [] ++ acc := by
  intro j
  induction j with
  | zero => intros; rfl
  | succ j ih =>
    intro pd bd cd acc
    simp only [scanMarkers]
    split
    · exact ih ..
    · split
      · rw [ih _ _ _ (pushMarker _ acc), ih _ _ _ (pushMarker _ []),
          pushMarker_append, List.append_assoc]
      · split
        · simp
        · exact ih ..

theorem scanHasExcluded_eq_any (lines exclude : List (List Char)) :
    ∀ (j : Nat) (pd bd cd : Int),
      scanHasExcluded lines exclude j pd bd cd
        = (scanMarkers lines j pd bd cd []).any (fun m => exclude.contains m) := by
  intro j
  induction j with
  | zero => intros; rfl
  | succ j ih =>
    intro pd bd cd
    simp only [scanHasExcluded, scanMarkers]
    split
    · exact ih ..
    · split
      · rw [scanMarkers_append, List.any_append]
        cases hx : extract_pytest_marker (lineTrim lines j) with
        | none =>
          rw [show markerExcluded exclude (lineTrim lines j) = false from by
                unfold markerExcluded; rw [hx],
            show pushMarker (lineTrim lines j) [] = [] from by
                unfold pushMarker; rw [hx]]
          simp [ih]
        | some m =>
          rw [show markerExcluded exclude (lineTrim lines j) = exclude.contains m from by
                unfold markerExcluded; rw [hx],
            show pushMarker (lineTrim lines j) [] = [m] from by
                unfold pushMarker; rw [hx]]
          by_cases hcm : exclude.contains m = true
          · rw [if_pos hcm]
            have hmem : m ∈ exclude := List.elem_iff.mp hcm
            simp [hmem]
          · have hcm' : exclude.contains m = false := by simpa using hcm
            have hnm : m ∉ exclude := by
              intro hmem
              have ht : exclude.contains m = true := List.elem_iff.mpr hmem
              rw [ht] at hcm'
              exact Bool.noConfusion hcm'
            rw [if_neg hcm]
            simp [hnm, ih]
      · split
        · rfl
        · exact ih ..

theorem scanMarkers_mem_sigil (lines : List (List Char)) :
    ∀ (j : Nat) (pd bd cd : Int) (m : List Char),
      m ∈ scanMarkers lines j pd bd cd [] →
      ∃ k, k < j ∧ (lineTrim lines k).head? = some '@' ∧
        extract_pytest_marker (lineTrim lines k) = some m := by
  intro j
  induction j with
  | zero => intro pd bd cd m hm; simp [scanMarkers] at hm
  | succ j ih =>
    intro pd bd cd m hm
    simp only [scanMarkers] at hm
    split at hm
    · obtain ⟨k, hk, h⟩ := ih _ _ _ _ hm
      exact ⟨k, Nat.lt_succ_of_lt hk, h⟩
    · split at hm
      · rw [scanMarkers_append] at hm
        rcases List.mem_append.mp hm with h | h
        · obtain ⟨k, hk, h⟩ := ih _ _ _ _ h
          exact ⟨k, Nat.lt_succ_of_lt hk, h⟩
        · unfold pushMarker at h
          split at h
          · cases List.mem_singleton.mp h
            exact ⟨j, Nat.lt_succ_self j, by assumption, by assumption⟩
          · simp at h
      · split at hm
        · simp at hm
        · obtain ⟨k, hk, h⟩ := ih _ _ _ _ hm
          exact ⟨k, Nat.lt_succ_of_lt hk, h⟩

/-- C4: during the backward scan, a non-blank line whose trimmed text does not
begin with `@` stops the scan exactly when the three delimiter-depth counters
are all zero after counting the line's delimiters, and is skipped without
marker extraction otherwise; consequently every collected marker comes from
the extractor applied to some sigil-prefixed line strictly above the
definition, so an identifier occurring only inside argument lines of a
multi-line decorator call is never collected. -/
theorem backward_scan_stop_skip_rules (lines : List (List Char)) (j : Nat)
    (pd bd cd pd' bd' cd' : Int) (acc : List (List Char))
    (h1 : lineTrim lines j ≠ [])
    (h2 : ¬ (lineTrim lines j).head? = some '@')
    (hp : pd' = pd + delimDelta '(' ')' (lineTrim lines j))
    (hb : bd' = bd + delimDelta '[' ']' (lineTrim lines j))
    (hc : cd' = cd + delimDelta '\x7b' '\x7d' (lineTrim lines j)) :
    (pd' = 0 ∧ bd' = 0 ∧ cd' = 0 →
      scanMarkers lines (j+1) pd bd cd acc = acc) ∧
    (¬ (pd' = 0 ∧ bd' = 0 ∧ cd' = 0) →
      scanMarkers lines (j+1) pd bd cd acc = scanMarkers lines j pd' bd' cd' acc) ∧
    (∀ m ∈ scanMarkers lines (j+1) pd bd cd [],
      ∃ k, k ≤ j ∧ (lineTrim lines k).head? = some '@' ∧
        extract_pytest_marker (lineTrim lines k) = some m) := by
  subst hp hb hc
  refine ⟨?_, ?_, ?_⟩
  · intro hz
    simp only [scanMarkers]
    rw [if_neg h1, if_neg h2, if_pos hz]
  · intro hnz
    simp only [scanMarkers]
    rw [if_neg h1, if_neg h2, if_neg hnz]
  · intro m hm
    obtain ⟨k, hk, h⟩ := scanMarkers_mem_sigil lines (j+1) _ _ _ m hm
    exact ⟨k, Nat.lt_succ_iff.mp hk, h⟩

/-- Witness for C4 on the repository's multi-line decorator example: the
ordinary line `import pytest` stops the scan at balanced depth, the closing
`)` line is skipped with the depth carried over, and the whole block yields
exactly the markers `unit` and `parametrize`. -/
theorem backward_scan_stop_skip_rules_witness :
    scanMarkers demoML 2 0 0 0 ["unit".data, "parametrize".data]
      = ["unit".data, "parametrize".data] ∧
    scanMarkers demoML 11 0 0 0 [] = scanMarkers demoML 10 (-1) 0 0 [] ∧
    scanMarkers demoML 11 0 0 0 [] = ["unit".data, "parametrize".data] :=
  ⟨(backward_scan_stop_skip_rules demoML 1 0 0 0 0 0 0
      ["unit".data, "parametrize".data] (by decide) (by decide)
      (by decide) (by decide) (by decide)).1 (by decide),
   (backward_scan_stop_skip_rules demoML 10 0 0 0 (-1) 0 0 [] (by decide)
      (by decide) (by decide) (by decide) (by decide)).2.1 (by decide),
   by decide⟩

/-! ### Dependence on the excluded set through membership only -/

theorem anyCongr {α : Type} (l : List α) (f g : α → Bool)
    (h : ∀ a, f a = g a) : l.any f = l.any g := by
  induction l with
  | nil => rfl
  | cons a l ih => simp [List.any_cons, h a, ih]

theorem markerExcluded_congr (e₁ e₂ : List (List Char)) (t : List Char)
    (h : ∀ m, e₁.contains m = e₂.contains m) :
    markerExcluded e₁ t = markerExcluded e₂ t := by
  unfold markerExcluded
  split
  · exact h _
  · rfl

theorem scanHasExcluded_congr (lines e₁ e₂ : List (List Char))
    (h : ∀ m, e₁.contains m = e₂.contains m) (j : Nat) (pd bd cd : Int) :
    scanHasExcluded lines e₁ j pd bd cd = scanHasExcluded lines e₂ j pd bd cd := by
  rw [scanHasExcluded_eq_any, scanHasExcluded_eq_any]
  exact anyCongr _ _ _ h

theorem classHasExcluded_congr (e₁ e₂ : List (List Char))
    (cms : List (Nat × List (List Char))) (fi : Nat)
    (h : ∀ m, e₁.contains m = e₂.contains m) :
    classHasExcluded e₁ cms fi = classHasExcluded e₂ cms fi := by
  unfold classHasExcluded
  exact anyCongr _ _ _ (fun p => by rw [anyCongr _ _ _ h])

theorem testExcluded_congr (lines e₁ e₂ : List (List Char))
    (cms : List (Nat × List (List Char))) (i fi : Nat)
    (h : ∀ m, e₁.contains m = e₂.contains m) :
    testExcluded lines e₁ cms i fi = testExcluded lines e₂ cms i fi := by
  unfold testExcluded
  rw [classHasExcluded_congr e₁ e₂ cms fi h, scanHasExcluded_congr lines e₁ e₂ h]

theorem findAux_exclude_congr (lines e₁ e₂ : List (List Char))
    (h : ∀ m, e₁.contains m = e₂.contains m) :
    ∀ (rest : List (List Char)) (i : Nat) (cms : List (Nat × List (List Char))),
      findAux lines e₁ rest i cms = findAux lines e₂ rest i cms := by
  intro rest
  induction rest with
  | nil => intros; rfl
  | cons l rest ih =>
    intro i cms
    simp only [findAux]
    split
    · exact ih ..
    · split
      · rw [testExcluded_congr lines e₁ e₂ _ _ _ h]
        split
        · exact ih ..
        · rw [ih ..]
      · exact ih ..

/-- C8: the analysis is deterministic and independent of the representation
of the unordered excluded-marker set: it depends on that set only through
membership, so any two extensionally equal excluded sets (in particular the
same set twice) give identical, order-stable output. -/
theorem analysis_depends_only_on_membership (lines e₁ e₂ : List (List Char))
    (h : ∀ m, e₁.contains m = e₂.contains m) :
    findPythonTestFunctions lines e₁ = findPythonTestFunctions lines e₂ :=
  findAux_exclude_congr lines e₁ e₂ h lines 0 []

/-- Witness for C8: permuting the excluded set does not change the result. -/
theorem analysis_depends_only_on_membership_witness :
    findPythonTestFunctions demoClass ["unit".data, "skip".data]
      = findPythonTestFunctions demoClass ["skip".data, "unit".data] :=
  analysis_depends_only_on_membership demoClass _ _ (fun m => by
    simp only [List.contains, List.elem]
    cases h1 : m == "unit".data <;> cases h2 : m == "skip".data <;> simp)

/-! ### Class-scope state -/

theorem anyMap {α β : Type} (l : List α) (g : α → β) (f : β → Bool) :
    (l.map g).any f = l.any (fun a => f (g a)) := by
  induction l with
  | nil => rfl
  | cons a l ih => simp [List.any_cons, ih]

theorem specMarked_eq_testExcluded (lines exclude : List (List Char)) (i fi : Nat) :
    specMarked lines exclude i fi
      = testExcluded lines exclude (classStateAt lines i) i fi := by
  unfold specMarked specEffectiveMarkers specOwnMarkers specInheritedMarkers
    testExcluded classHasExcluded
  rw [List.any_append, List.any_flatten, anyMap, List.any_filter,
    ← scanHasExcluded_eq_any, Bool.or_comm]

theorem classUpdate_pairwise (lines : List (List Char))
    (cms : List (Nat × List (List Char))) (i ci : Nat)
    (h : List.Pairwise (fun p q => p.1 < q.1) cms) :
    List.Pairwise (fun p q => p.1 < q.1) (classUpdate lines cms i ci) := by
  simp only [classUpdate]
  split
  · exact h.filter (fun p => decide (p.1 < ci))
  · rw [List.pairwise_append]
    refine ⟨h.filter (fun p => decide (p.1 < ci)), List.pairwise_singleton .., ?_⟩
    intro p hp q hq
    rw [List.mem_singleton.mp hq]
    exact of_decide_eq_true (List.mem_filter.mp hp).2

theorem classStateAt_pairwise (lines : List (List Char)) (i : Nat) :
    List.Pairwise (fun p q => p.1 < q.1) (classStateAt lines i) := by
  induction i with
  | zero => exact List.Pairwise.nil
  | succ i ih =>
    show List.Pairwise _ (classStep lines (classStateAt lines i) i)
    unfold classStep
    split
    · exact classUpdate_pairwise lines _ i _ ih
    · exact ih

theorem classHasExcluded_filter (exclude : List (List Char))
    (cms : List (Nat × List (List Char))) (fi : Nat) :
    classHasExcluded exclude cms fi
      = classHasExcluded exclude (cms.filter (fun p => decide (p.1 < fi))) fi := by
  unfold classHasExcluded
  rw [List.any_filter]
  exact anyCongr _ _ _ (fun p => by cases hd : decide (p.1 < fi) <;> simp [hd])

theorem matchClass_none_of_testFn {l : List Char} {fi : Nat} {name : List Char}
    (h : matchTestFn l = some (fi, name)) : matchClass l = none := by
  have hdef : (l.dropWhile isSpaceChar).take 3 = "def".data := by
    simp only [matchTestFn] at h
    split at h
    · assumption
    · exact absurd h (by simp)
  simp only [matchClass]
  rw [if_neg]
  intro hcl
  have h3 : (l.dropWhile isSpaceChar).take 3 = "cla".data := by
    have h' := congrArg (List.take 3) hcl
    rw [List.take_take] at h'
    exact h'
  exact absurd (hdef.symm.trans h3) (by decide)

theorem drop_eq_cons_getD {α : Type} (d : α) :
    ∀ (l : List α) (i : Nat) (x : α) (r : List α),
      l.drop i = x :: r → l.getD i d = x ∧ l.drop (i + 1) = r := by
  intro l
  induction l with
  | nil => intro i x r h; simp [List.drop_nil] at h
  | cons a l ih =>
    intro i x r h
    cases i with
    | zero =>
      rw [List.drop_zero] at h
      cases h
      exact ⟨rfl, by simp⟩
    | succ i =>
      rw [List.drop_succ_cons] at h
      obtain ⟨h1, h2⟩ := ih i x r h
      exact ⟨h1, h2⟩

/-! ### The forward scan refines the per-line specification -/

theorem findAux_eq_spec (lines exclude : List (List Char)) :
    ∀ (rest : List (List Char)) (i : Nat) (cms : List (Nat × List (List Char))),
      lines.drop i = rest → cms = classStateAt lines i →
      findAux lines exclude rest i cms
        = (idxFrom i rest.length).filterMap (specVerdict lines exclude) := by
  intro rest
  induction rest with
  | nil => intros; rfl
  | cons l rest ih =>
    intro i cms hdrop hcms
    obtain ⟨hget, hdrop'⟩ := drop_eq_cons_getD [] lines i l rest hdrop
    simp only [findAux, List.length_cons, idxFrom, List.filterMap_cons]
    cases hcl : matchClass l with
    | some ci =>
      have hv : specVerdict lines exclude i = none := by
        unfold specVerdict
        rw [hget, hcl]
      have hnext : classUpdate lines cms i ci = classStateAt lines (i + 1) := by
        have hstep : classStateAt lines (i + 1)
            = classStep lines (classStateAt lines i) i := rfl
        rw [hstep]
        unfold classStep
        rw [hget, hcl, hcms]
      rw [hv]
      dsimp only
      exact ih (i + 1) _ hdrop' hnext
    | none =>
      have hnext : classStateAt lines (i + 1) = cms := by
        have hstep : classStateAt lines (i + 1)
            = classStep lines (classStateAt lines i) i := rfl
        rw [hstep]
        unfold classStep
        rw [hget, hcl, hcms]
      cases htf : matchTestFn l with
      | some p =>
        obtain ⟨fi, name⟩ := p
        have hv : specVerdict lines exclude i
            = if specMarked lines exclude i fi then none else some name := by
          unfold specVerdict
          rw [hget, hcl, htf]
        have hdec : testExcluded lines exclude cms i fi
            = specMarked lines exclude i fi := by
          rw [hcms, ← specMarked_eq_testExcluded]
        rw [hv]
        dsimp only
        rw [hdec]
        by_cases hm : specMarked lines exclude i fi = true
        · rw [if_pos hm, if_pos hm]
          dsimp only
          exact ih (i + 1) _ hdrop' hnext.symm
        · rw [if_neg hm, if_neg hm]
          dsimp only
          rw [ih (i + 1) _ hdrop' hnext.symm]
      | none =>
        have hv : specVerdict lines exclude i = none := by
          unfold specVerdict
          rw [hget, hcl, htf]
        rw [hv]
        dsimp only
        exact ih (i + 1) _ hdrop' hnext.symm

/-- C1 (amended): the analysis emits one entry per matching test-definition
line — line `i`'s captured name appears, once for that line and in order,
exactly when the line's effective marker set (its own decorators unioned with
the markers of every enclosing class scope entry) does not intersect the
excluded set.  A name defined on several unmarked lines therefore appears
once per such line, not exactly once globally. -/
theorem unmarked_listing_per_definition_line (lines exclude : List (List Char)) :
    findPythonTestFunctions lines exclude = specUnmarkedTests lines exclude := by
  unfold findPythonTestFunctions specUnmarkedTests
  exact findAux_eq_spec lines exclude lines 0 [] (List.drop_zero lines) rfl

/-- C1 counterexample: with the same unmarked test name defined on two lines,
the effective marker sets are disjoint from the excluded set, yet the name is
returned twice — not exactly once, refuting the claim as stated. -/
theorem exactly_once_fails_on_duplicates :
    ((findPythonTestFunctions demoDup ["unit".data]).count ("test_dup".data) = 1)
      = False ∧
    specMarked demoDup ["unit".data] 0 0 = false ∧
    specMarked demoDup ["unit".data] 1 0 = false ∧
    (findPythonTestFunctions demoDup ["unit".data]).count ("test_dup".data) = 2 :=
  ⟨eq_false (by decide), by decide, by decide, by decide⟩

/-- C2 (amended): the active class scope entries always form a strictly
increasing chain of indentation levels (properly nested scopes); a non-class
line never changes the entry list — in particular entries whose indentation
is not strictly below the current line's may persist — and such entries are
harmless because the exclusion decision for a function at indentation `fi`
only consults entries strictly shallower than `fi`. -/
theorem scope_entries_nested_and_consulted_filtered (lines exclude : List (List Char))
    (i fi : Nat) (h : matchClass (lines.getD i []) = none) :
    List.Pairwise (fun p q => p.1 < q.1) (classStateAt lines i) ∧
    classStateAt lines (i + 1) = classStateAt lines i ∧
    classHasExcluded exclude (classStateAt lines i) fi
      = classHasExcluded exclude
          ((classStateAt lines i).filter (fun p => decide (p.1 < fi))) fi := by
  refine ⟨classStateAt_pairwise lines i, ?_, classHasExcluded_filter ..⟩
  have hstep : classStateAt lines (i + 1)
      = classStep lines (classStateAt lines i) i := rfl
  rw [hstep]
  unfold classStep
  rw [h]

/-- Witness for C2's amended invariant on the decorated-class demo file. -/
theorem scope_entries_nested_and_consulted_filtered_witness :
    List.Pairwise (fun p q => p.1 < q.1) (classStateAt demoMethod 2) ∧
    classStateAt demoMethod 3 = classStateAt demoMethod 2 ∧
    classHasExcluded ["unit".data] (classStateAt demoMethod 2) 4
      = classHasExcluded ["unit".data]
          ((classStateAt demoMethod 2).filter (fun p => decide (p.1 < 4))) 4 :=
  scope_entries_nested_and_consulted_filtered demoMethod ["unit".data] 2 4 (by decide)

/-- C2 counterexample: while scanning `demoClass`, at the top-level line
`def test_b():` (indentation 0) the entry for `class TestA` (indentation 0)
is still in the active list, although its indentation is not strictly less
than the current line's — the claimed invariant fails. -/
theorem stale_scope_entry_at_equal_indent :
    classStateAt demoClass 2 = [(0, ["unit".data])] ∧
    indentOf (demoClass.getD 2 []) = 0 ∧
    ((classStateAt demoClass 2).all
      (fun p => decide (p.1 < indentOf (demoClass.getD 2 [])))) = false :=
  ⟨by decide, by decide, by decide⟩

/-- C3: an excluded marker on an active enclosing class scope entry excludes
every test function at strictly deeper indentation while the entry is active,
and a class definition at indentation `ci` closes every scope at indentation
greater than or equal to `ci`: the state after the class line is exactly the
strictly shallower (`< ci`) entries of the previous state — every prior entry
at indentation ≥ `ci`, including exactly `ci`, is removed — followed by the
new class's own entry when its scanned marker set is non-empty. -/
theorem class_marker_excludes_nested_tests (lines exclude : List (List Char))
    (i L fi : Nat) (ms : List (List Char)) (m name : List Char)
    (hmem : (L, ms) ∈ classStateAt lines i)
    (hm : m ∈ ms) (hex : exclude.contains m = true)
    (hline : matchTestFn (lines.getD i []) = some (fi, name))
    (hL : L < fi) :
    classHasExcluded exclude (classStateAt lines i) fi = true ∧
    specVerdict lines exclude i = none ∧
    (∀ k ci, matchClass (lines.getD k []) = some ci →
      classStateAt lines (k + 1)
        = (classStateAt lines k).filter (fun p => decide (p.1 < ci))
          ++ (if scanMarkers lines k 0 0 0 [] = [] then []
              else [(ci, scanMarkers lines k 0 0 0 [])])) := by
  have hcls : classHasExcluded exclude (classStateAt lines i) fi = true := by
    unfold classHasExcluded
    refine List.any_eq_true.mpr ⟨(L, ms), hmem, ?_⟩
    rw [Bool.and_eq_true]
    exact ⟨decide_eq_true hL, List.any_eq_true.mpr ⟨m, hm, hex⟩⟩
  refine ⟨hcls, ?_, ?_⟩
  · unfold specVerdict
    rw [matchClass_none_of_testFn hline, hline]
    have hsm : specMarked lines exclude i fi = true := by
      rw [specMarked_eq_testExcluded]
      unfold testExcluded
      rw [hcls, Bool.true_or]
    dsimp only
    rw [if_pos hsm]
  · intro k ci hk
    have hstep : classStateAt lines (k + 1)
        = classUpdate lines (classStateAt lines k) k ci := by
      have h0 : classStateAt lines (k + 1)
          = classStep lines (classStateAt lines k) k := rfl
      rw [h0]
      unfold classStep
      rw [hk]
    rw [hstep]
    simp only [classUpdate]
    split
    · simp
    · rfl

/-- Witness for C3: the `unit`-decorated class of `demoSibling` excludes its
indented method `test_a`, and the sibling class at the same indentation 0
closes the scope — the state after it is the strictly shallower filter of the
old state (here empty: the equal-indent entry is removed) plus the new
class's own entry (here none, it carries no markers). -/
theorem class_marker_excludes_nested_tests_witness :
    classHasExcluded ["unit".data] (classStateAt demoSibling 2) 4 = true ∧
    specVerdict demoSibling ["unit".data] 2 = none ∧
    classStateAt demoSibling 4
      = (classStateAt demoSibling 3).filter (fun p => decide (p.1 < 0))
        ++ (if scanMarkers demoSibling 3 0 0 0 [] = [] then []
            else [(0, scanMarkers demoSibling 3 0 0 0 [])]) :=
  ⟨(class_marker_excludes_nested_tests demoSibling ["unit".data] 2 0 4 ["unit".data]
      "unit".data "test_a".data (by decide) (by decide) (by decide) (by decide)
      (by decide)).1,
   (class_marker_excludes_nested_tests demoSibling ["unit".data] 2 0 4 ["unit".data]
      "unit".data "test_a".data (by decide) (by decide) (by decide) (by decide)
      (by decide)).2.1,
   (class_marker_excludes_nested_tests demoSibling ["unit".data] 2 0 4 ["unit".data]
      "unit".data "test_a".data (by decide) (by decide) (by decide) (by decide)
      (by decide)).2.2 3 0 (by decide)⟩

/-- C6: the analysis output lists the unmarked test-function names in their
order of appearance in the input: it is an order-preserving selection
(sublist) of the in-order sequence of all test-definition names, with no
sorting or reordering. -/
theorem output_preserves_appearance_order (lines exclude : List (List Char)) :
    List.Sublist (findPythonTestFunctions lines exclude) (testDefNames lines) := by
  suffices hgen : ∀ (rest : List (List Char)) (i : Nat)
      (cms : List (Nat × List (List Char))),
      List.Sublist (findAux lines exclude rest i cms) (testDefNames rest) by
    exact hgen lines 0 []
  intro rest
  induction rest with
  | nil => intro i cms; exact List.Sublist.refl []
  | cons l rest ih =>
    intro i cms
    simp only [findAux, testDefNames, List.filterMap_cons]
    cases hcl : matchClass l with
    | some ci =>
      simp only [hcl]
      exact ih ..
    | none =>
      cases htf : matchTestFn l with
      | some p =>
        obtain ⟨fi, name⟩ := p
        simp only [hcl, htf, Option.map_some']
        split
        · exact List.Sublist.cons name (ih ..)
        · exact List.Sublist.cons₂ name (ih ..)
      | none =>
        simp only [hcl, htf, Option.map_none']
        exact ih ..

end CollectUnmarked
